import Mathlib

/-!
Verification of the `WritebackCache` controller from `lambdasoc/periph/sdram.py`.

The development shallowly embeds the synchronous hardware design as a step
function on an explicit state record.  The cache side (address decomposition,
tag/data stores, the CHECK/EVICT/REFILL state machine, the wishbone front-end
and the three LiteDRAM backend channels) is translated directly from the
nMigen source of `WritebackCache.elaborate`.  The DRAM backend itself is not
part of the repository; its environment model (a memory that accepts one
outstanding command, pairs write commands with write beats, and answers read
commands with the stored data) is modelled from the specification of the
three valid/ready channels and from the repository's own formal testbench
(`test_periph_sdram.py`), which drives the design under exactly these
assumptions.  The front-end conformance predicate (requests held constant
until acknowledged, burst continuation advancing the address according to the
declared wrap type) is likewise the contract the testbench assumes.
-/

namespace Lambdasoc

/-- Configuration parameters of `WritebackCache` and the `LiteDRAMNativePort`
it drives: DRAM port address/data width, front-end data width, cache size in
bytes-like granularity units, and bus granularity. -/
structure Cfg where
  dramAddrW : Nat
  dramDataW : Nat
  dataW     : Nat
  size      : Nat
  gran      : Nat
deriving DecidableEq

/-- Fuelled bit-length recursion (the fuel bounds the recursion depth so the
definition is structural and evaluates by kernel reduction). -/
def bitLenF : Nat → Nat → Nat
  | 0, _ => 0
  | f + 1, n => if n = 0 then 0 else bitLenF f (n / 2) + 1

/-- Python's `int.bit_length`: the number of binary digits of `n`. -/
def bitLen (n : Nat) : Nat := bitLenF n n

/-- nMigen's `log2_int(n)`: `0` for `n = 0`, else `(n - 1).bit_length()`
(exact binary logarithm on powers of two, which is the only way the source
uses it). -/
def log2int (n : Nat) : Nat := if n = 0 then 0 else bitLen (n - 1)

/-- Number of front-width words per backend word
(`ratio = dram_port.data_width // intr_bus.data_width` in the source). -/
def Cfg.wordsPer (c : Cfg) : Nat := c.dramDataW / c.dataW

/-- Number of cache lines
(`nb_lines = (size * granularity) // dram_port.data_width`). -/
def Cfg.nbLines (c : Cfg) : Nat := c.size * c.gran / c.dramDataW

/-- Width of the `offset` field (`log2_int(ratio)`). -/
def Cfg.oB (c : Cfg) : Nat := log2int c.wordsPer

/-- Width of the `line` field (`log2_int(nb_lines)`). -/
def Cfg.lB (c : Cfg) : Nat := log2int c.nbLines

/-- Front-end bus address width
(`dram_port.addr_width + log2_int(dram_port.data_width // data_width)`). -/
def Cfg.intrW (c : Cfg) : Nat := c.dramAddrW + c.oB

/-- Width of the `tag` field (`len(intr_bus.adr) - log2 nb_lines - log2 ratio`). -/
def Cfg.tagW (c : Cfg) : Nat := c.intrW - c.lB - c.oB

/-- Width of `intr_bus.sel` (`data_width // granularity`). -/
def Cfg.selW (c : Cfg) : Nat := c.dataW / c.gran

/-- Number of write lanes of the data store's write port
(`dram_port.data_width // granularity`). -/
def Cfg.lanes (c : Cfg) : Nat := c.dramDataW / c.gran

/-- The `offset` field of a decomposed front-end address (low `oB` bits). -/
def offsetOf (c : Cfg) (a : Nat) : Nat := a % 2 ^ c.oB

/-- The `line` field of a decomposed front-end address (`lB` bits above offset). -/
def lineOf (c : Cfg) (a : Nat) : Nat := a / 2 ^ c.oB % 2 ^ c.lB

/-- The `tag` field of a decomposed front-end address (remaining high bits). -/
def tagOf (c : Cfg) (a : Nat) : Nat := a / 2 ^ (c.oB + c.lB) % 2 ^ c.tagW

/-- Backend command address `Cat(line, tag)`: line in the low `lB` bits,
tag above. -/
def mkDramAddr (c : Cfg) (line tag : Nat) : Nat :=
  line % 2 ^ c.lB + tag % 2 ^ c.tagW * 2 ^ c.lB

/-- Increment the low `k` bits of `a`, wrapping inside that window and leaving
all higher bits unchanged (the `WRAP_*` burst address computation). -/
def wrapInc (k a : Nat) : Nat := a / 2 ^ k * 2 ^ k + (a % 2 ^ k + 1) % 2 ^ k

/-- Burst next-address function (`intr_adr_next`), selected by the 2-bit
`bte` field: `LINEAR = 0`, `WRAP_4 = 1`, `WRAP_8 = 2`, `WRAP_16 = 3`. -/
def adrNext (c : Cfg) (a bte : Nat) : Nat :=
  match bte % 4 with
  | 0 => (a + 1) % 2 ^ c.intrW
  | 1 => wrapInc 2 a
  | 2 => wrapInc 3 a
  | _ => wrapInc 4 a

/-- One entry of the tag store: `{tag, dirty}`. -/
structure TagEntry where
  tag : Nat
  dirty : Bool
deriving DecidableEq

/-- Front-end and backend input signals sampled on one tick: the wishbone
request fields and the backend's ready/valid wires. -/
structure Input where
  cyc   : Bool
  stb   : Bool
  we    : Bool
  adr   : Nat
  datW  : Nat
  sel   : Nat
  cti   : Nat
  bte   : Nat
  cmdReady : Bool
  wReady   : Bool
  rValidIn : Bool
deriving DecidableEq

/-- The three controller states of the FSM in `WritebackCache.elaborate`. -/
inductive Fsm where
  | CHECK
  | EVICT
  | REFILL
deriving DecidableEq

/-- Pointwise update of a function-modelled memory array. -/
def upd {α : Type} (f : Nat → α) (k : Nat) (v : α) : Nat → α :=
  fun x => if x = k then v else f x

/-- Replicate the low `w` bits of `x` into `n` consecutive `w`-bit words
(`Repl(intr_bus.dat_w, ratio)`). -/
def replWord (w x : Nat) : Nat → Nat
  | 0 => 0
  | n + 1 => x % 2 ^ w + 2 ^ w * replWord w x n

/-- Lane-masked write combine: for each of `n` lanes of `g` bits, take the
lane from `new` where the corresponding bit of `en` is set, else from `old`.
Models a memory write port with write granularity `g`. -/
def combine (g : Nat) : Nat → Nat → Nat → Nat → Nat
  | 0, _, _, _ => 0
  | n + 1, en, old, new =>
      (if en % 2 = 1 then new % 2 ^ g else old % 2 ^ g) +
        2 ^ g * combine g n (en / 2) (old / 2 ^ g) (new / 2 ^ g)

/-- Full synchronous state: the cache controller registers (FSM state, the
registered request `intr_bus_r`, the tag/data read-port data registers, the
tag and data memories, the four completion flags) together with the DRAM
backend environment (its memory, the pending write command address, pending
write data, and pending read command address). -/
structure State where
  fsm    : Fsm
  rCyc   : Bool
  rStb   : Bool
  rAdr   : Nat
  tagR   : TagEntry
  datR   : Nat
  tagMem : Nat → TagEntry
  datMem : Nat → Nat
  evCmd  : Bool
  evW    : Bool
  rfCmd  : Bool
  rfR    : Bool
  mem    : Nat → Nat
  pW     : Option Nat
  pWD    : Option Nat
  pR     : Option Nat

/-- Reset state: FSM in CHECK, no registered request, zeroed memories and
read registers, completion flags clear; the backend memory starts zeroed to
match the zero-initialised cache stores. -/
def initState : State where
  fsm := .CHECK
  rCyc := false
  rStb := false
  rAdr := 0
  tagR := ⟨0, false⟩
  datR := 0
  tagMem := fun _ => ⟨0, false⟩
  datMem := fun _ => 0
  evCmd := false
  evW := false
  rfCmd := false
  rfR := false
  mem := fun _ => 0
  pW := none
  pWD := none
  pR := none

/-- The front-end acknowledge signal: combinationally driven only in CHECK,
asserted when a request is active, the live request's tag equals the tag
held in the read-port data register, and the registered request is
outstanding. -/
def ackOf (c : Cfg) (s : State) (i : Input) : Bool :=
  match s.fsm with
  | .CHECK =>
      if i.cyc && i.stb then
        if tagOf c i.adr == s.tagR.tag then s.rCyc && s.rStb else false
      else false
  | _ => false

/-- Backend environment step, modelled from the testbench's DRAM interface
tracking: a write command address and its write beat are remembered until
both have arrived, at which point the memory word is updated; a read command
address is remembered until the read beat is taken. -/
def dramStep (dw : Nat) (mem : Nat → Nat) (pW pWD pR : Option Nat)
    (cmdHand cmdWe : Bool) (cmdAddr : Nat)
    (wHand : Bool) (wData : Nat) (rTaken : Bool) :
    (Nat → Nat) × Option Nat × Option Nat × Option Nat :=
  let pRa := if rTaken then none else pR
  let pRb := if cmdHand && !cmdWe then some cmdAddr else pRa
  let pWa := if cmdHand && cmdWe then some cmdAddr else pW
  let pWDa := if wHand then some wData else pWD
  match pWa, pWDa with
  | some a, some d => (upd mem a (d % 2 ^ dw), none, none, pRb)
  | pw, pd => (mem, pw, pd, pRb)

/-- One tick in the CHECK state: registers the live request (clearing its
cyc/stb on a miss), performs the enabled tag/data read (non-transparent, so
against the pre-write array), commits a write hit under the byte select
mask, and selects the next FSM state. -/
def stepCheck (c : Cfg) (s : State) (i : Input) : State :=
  let ack := ackOf c s i
  let act := i.cyc && i.stb
  let tagHit := tagOf c i.adr == s.tagR.tag
  let rdLine :=
    if ack && (i.cti % 8 == 2) then lineOf c (adrNext c i.adr i.bte)
    else lineOf c i.adr
  let rdEn := act && (!s.rCyc || !s.rStb || ack)
  let doWrite := act && tagHit && i.we && ack
  let miss := act && !tagHit && s.rCyc && s.rStb
  let wLine := lineOf c i.adr
  let wMask := i.sel % 2 ^ c.selW * 2 ^ (offsetOf c i.adr * c.selW)
  let (mem1, pW1, pWD1, pR1) :=
    dramStep c.dramDataW s.mem s.pW s.pWD s.pR false false 0 false 0 false
  { s with
    fsm := if miss then (if s.tagR.dirty then .EVICT else .REFILL) else .CHECK
    rCyc := if miss then false else i.cyc
    rStb := if miss then false else i.stb
    rAdr := i.adr
    tagR := if rdEn then s.tagMem rdLine else s.tagR
    datR := if rdEn then s.datMem rdLine else s.datR
    tagMem := if doWrite then upd s.tagMem wLine ⟨tagOf c i.adr, true⟩ else s.tagMem
    datMem :=
      if doWrite then
        upd s.datMem wLine
          (combine c.gran c.lanes wMask (s.datMem wLine)
            (replWord c.dataW i.datW c.wordsPer))
      else s.datMem
    mem := mem1, pW := pW1, pWD := pWD1, pR := pR1 }

/-- One tick in the EVICT state: the write command (address `Cat(line, read
tag)`) and the write beat (the held line data) are each offered until their
own ready is seen; the two completion flags join into the transition to
REFILL, resetting on exit. -/
def stepEvict (c : Cfg) (s : State) (i : Input) : State :=
  let exitEv := s.evCmd && s.evW
  let cmdValid := !s.evCmd
  let cmdHand := cmdValid && i.cmdReady
  let wValid := !s.evW
  let wHand := wValid && i.wReady
  let cmdAddr := mkDramAddr c (lineOf c s.rAdr) s.tagR.tag
  let (mem1, pW1, pWD1, pR1) :=
    dramStep c.dramDataW s.mem s.pW s.pWD s.pR cmdHand true cmdAddr wHand s.datR false
  { s with
    fsm := if exitEv then .REFILL else .EVICT
    evCmd := if exitEv then false else s.evCmd || cmdHand
    evW := if exitEv then false else s.evW || wHand
    mem := mem1, pW := pW1, pWD := pWD1, pR := pR1 }

/-- One tick in the REFILL state: the read command (address `Cat(line, tag)`
of the registered request) is offered until accepted; when the backend
presents the read beat it is committed into the tag store (dirty cleared)
and, full-width, into the data store; the two completion flags join into the
transition back to CHECK, resetting on exit. -/
def stepRefill (c : Cfg) (s : State) (i : Input) : State :=
  let exitRf := s.rfCmd && s.rfR
  let cmdValid := !s.rfCmd
  let cmdHand := cmdValid && i.cmdReady
  let rReady := !s.rfR
  let rValid := i.rValidIn && s.pR.isSome
  let deliver := rValid && rReady
  let rData := s.mem (s.pR.getD 0)
  let line := lineOf c s.rAdr
  let tg := tagOf c s.rAdr
  let cmdAddr := mkDramAddr c line tg
  let (mem1, pW1, pWD1, pR1) :=
    dramStep c.dramDataW s.mem s.pW s.pWD s.pR cmdHand false cmdAddr false 0 deliver
  { s with
    fsm := if exitRf then .CHECK else .REFILL
    rfCmd := if exitRf then false else s.rfCmd || cmdHand
    rfR := if exitRf then false else s.rfR || deliver
    tagMem := if deliver then upd s.tagMem line ⟨tg, false⟩ else s.tagMem
    datMem :=
      if deliver then
        upd s.datMem line (combine c.gran c.lanes (2 ^ c.lanes - 1) (s.datMem line) rData)
      else s.datMem
    mem := mem1, pW := pW1, pWD := pWD1, pR := pR1 }

/-- One synchronous tick of the composed cache-plus-backend system. -/
def step (c : Cfg) (s : State) (i : Input) : State :=
  match s.fsm with
  | .CHECK => stepCheck c s i
  | .EVICT => stepEvict c s i
  | .REFILL => stepRefill c s i

/-- Combinational outputs visible on one tick. -/
structure Outs where
  ack      : Bool
  datRead  : Nat
  cmdValid : Bool
  cmdLast  : Bool
  cmdWe    : Bool
  cmdAddr  : Nat
  wValid   : Bool
  wWe      : Nat
  wData    : Nat
  rReady   : Bool
  tagRpEn  : Bool
  datRpEn  : Bool
deriving DecidableEq

/-- Combinational output function, state by state: CHECK drives the
front-end signals and the store read enables; EVICT drives the write command
and write beat channels; REFILL drives the read command channel and read
beat ready. -/
def outs (c : Cfg) (s : State) (i : Input) : Outs :=
  match s.fsm with
  | .CHECK =>
      let ack := ackOf c s i
      let act := i.cyc && i.stb
      let rdEn := act && (!s.rCyc || !s.rStb || ack)
      { ack := ack
        datRead := s.datR / 2 ^ (c.dataW * offsetOf c i.adr) % 2 ^ c.dataW
        cmdValid := false, cmdLast := false, cmdWe := false, cmdAddr := 0
        wValid := false, wWe := 0, wData := 0, rReady := false
        tagRpEn := rdEn, datRpEn := rdEn }
  | .EVICT =>
      { ack := false, datRead := 0
        cmdValid := !s.evCmd, cmdLast := false, cmdWe := true
        cmdAddr := mkDramAddr c (lineOf c s.rAdr) s.tagR.tag
        wValid := !s.evW, wWe := 2 ^ (c.dramDataW / 8) - 1, wData := s.datR
        rReady := false, tagRpEn := false, datRpEn := false }
  | .REFILL =>
      { ack := false, datRead := 0
        cmdValid := !s.rfCmd, cmdLast := true, cmdWe := false
        cmdAddr := mkDramAddr c (lineOf c s.rAdr) (tagOf c s.rAdr)
        wValid := false, wWe := 0, wData := 0
        rReady := !s.rfR, tagRpEn := false, datRpEn := false }

/-- Run the system over a list of per-tick inputs. -/
def runList (c : Cfg) (s : State) (l : List Input) : State :=
  l.foldl (step c) s

/-- States reachable from reset under arbitrary inputs. -/
inductive ReachAny (c : Cfg) : State → Prop
  | init : ReachAny c initState
  | next {s : State} (h : ReachAny c s) (i : Input) : ReachAny c (step c s i)

/-- Front-end conformance between the input of one tick and the next,
relative to the state on the earlier tick: fields held while unacknowledged,
`bte` held across an active request, and after an acknowledge either the
address advances per the burst type (`cti = INCR_BURST`) or the cycle ends.
Modelled from the assumptions of the repository's formal testbench. -/
def conformsB (c : Cfg) (s : State) (ip i : Input) : Bool :=
  !(ip.cyc && ip.stb) ||
    ((i.bte % 4 == ip.bte % 4) &&
      (if ackOf c s ip then
        (if ip.cti % 8 == 2 then i.adr == adrNext c ip.adr i.bte else !i.cyc)
      else
        (i.adr == ip.adr) && (i.we == ip.we) && (i.datW == ip.datW) &&
          (i.sel == ip.sel) && (i.cti % 8 == ip.cti % 8)))

/-- Reachability under the front-end protocol: `ReachC c s i` states that
`s` is reached from reset by a conforming input trace and `i` is the input
about to be applied, conforming with the trace so far. -/
inductive ReachC (c : Cfg) : State → Input → Prop
  | init (i : Input) : ReachC c initState i
  | next {s : State} {ip : Input} (h : ReachC c s ip) (i : Input)
      (hc : conformsB c s ip i = true) : ReachC c (step c s ip) i

/-- A positive power of two. -/
def IsPow2 (n : Nat) : Prop := ∃ k, n = 2 ^ k

theorem div_pow_eq_one {m k : Nat} (h1 : 2 ^ k ≤ m) (h2 : m < 2 ^ (k + 1)) :
    m / 2 ^ k = 1 := by
  have hp : 0 < 2 ^ k := Nat.pos_pow_of_pos k (by norm_num)
  have h3 : 1 ≤ m / 2 ^ k := (Nat.one_le_div_iff hp).2 h1
  have h4 : m / 2 ^ k < 2 :=
    (Nat.div_lt_iff_lt_mul hp).2 (by rw [pow_succ] at h2; omega)
  omega

theorem land_pred_eq_zero_iff {n : Nat} (hn : 0 < n) :
    n &&& (n - 1) = 0 ↔ IsPow2 n := by
  constructor
  · intro h
    set k := Nat.log2 n with hk
    have hle : 2 ^ k ≤ n := Nat.log2_self_le (Nat.pos_iff_ne_zero.1 hn)
    have hlt : n < 2 ^ (k + 1) := Nat.lt_log2_self
    refine ⟨k, ?_⟩
    by_contra hne
    have hgt : 2 ^ k < n := lt_of_le_of_ne hle (fun he => hne he.symm)
    have ht1 : n.testBit k = true := by
      rw [Nat.testBit_to_div_mod, div_pow_eq_one hle hlt]; decide
    have ht2 : (n - 1).testBit k = true := by
      have hle2 : 2 ^ k ≤ n - 1 := by omega
      have hlt2 : n - 1 < 2 ^ (k + 1) := by omega
      rw [Nat.testBit_to_div_mod, div_pow_eq_one hle2 hlt2]; decide
    have : (n &&& (n - 1)).testBit k = true := by
      rw [Nat.testBit_land, ht1, ht2]; rfl
    rw [h, Nat.zero_testBit] at this
    exact Bool.false_ne_true this
  · rintro ⟨k, rfl⟩
    refine Nat.eq_of_testBit_eq (fun i => ?_)
    rw [Nat.testBit_land, Nat.testBit_two_pow, Nat.testBit_two_pow_sub_one,
      Nat.zero_testBit]
    rcases Nat.lt_or_ge i k with h | h
    · simp [Nat.ne_of_gt h]
    · simp [Nat.not_lt.2 h]

/-- Validity of the `LiteDRAMNativePort` constructor arguments: the checks
of `LiteDRAMNativePort.__init__` pass (no `ValueError` raised). -/
def portCheckOk (addrWidth dataWidth : Int) : Bool :=
  decide (0 < addrWidth) &&
    (decide (0 < dataWidth) && (dataWidth.toNat &&& (dataWidth.toNat - 1) == 0))

/-- Validity of the `WritebackCache` constructor arguments given an already
constructed port: the checks of `WritebackCache.__init__` pass. -/
def cacheCheckOk (dramDataWidth size dataWidth : Int) : Bool :=
  (decide (0 < size) && (size.toNat &&& (size.toNat - 1) == 0)) &&
    (decide (0 < dataWidth) && (dataWidth.toNat &&& (dataWidth.toNat - 1) == 0)) &&
    (dramDataWidth % dataWidth == 0)

/-- Combined constructor validation: the port is built first, then handed to
the cache; construction succeeds exactly when both sets of checks pass. -/
def constructOk (addrWidth dramDataWidth size dataWidth : Int) : Bool :=
  portCheckOk addrWidth dramDataWidth && cacheCheckOk dramDataWidth size dataWidth

theorem bitLenF_eq {f n : Nat} (h : n ≤ f) :
    bitLenF f n = if n = 0 then 0 else Nat.log2 n + 1 := by
  induction f generalizing n with
  | zero =>
      have : n = 0 := by omega
      subst this; rfl
  | succ f ih =>
      unfold bitLenF
      by_cases hn : n = 0
      · simp [hn]
      · have h2 : n / 2 ≤ f := by omega
        rw [if_neg hn, ih h2]
        by_cases h1 : n / 2 = 0
        · have hx : n = 1 := by omega
          subst hx
          rw [if_pos rfl, Nat.log2]
          norm_num
        · rw [if_neg h1]
          have h3 : n ≥ 2 := by omega
          conv_rhs => rw [Nat.log2]
          rw [if_pos h3, if_neg hn]

theorem log2_unique {m j : Nat} (h1 : 2 ^ j ≤ m) (h2 : m < 2 ^ (j + 1)) :
    Nat.log2 m = j := by
  have hm : m ≠ 0 := by
    have : 0 < 2 ^ j := Nat.pos_pow_of_pos j (by norm_num)
    omega
  have ha := Nat.log2_self_le hm
  have hb := @Nat.lt_log2_self m
  have hx : Nat.log2 m < j + 1 := by
    by_contra hc
    push_neg at hc
    have := Nat.pow_le_pow_right (by norm_num : 1 ≤ 2) hc
    omega
  have hy : j < Nat.log2 m + 1 := by
    by_contra hc
    push_neg at hc
    have := Nat.pow_le_pow_right (by norm_num : 1 ≤ 2) hc
    omega
  omega

theorem log2int_two_pow (k : Nat) : log2int (2 ^ k) = k := by
  have hp : (0:Nat) < 2 ^ k := Nat.pos_pow_of_pos k (by norm_num)
  unfold log2int bitLen
  rw [if_neg (by omega), bitLenF_eq (Nat.le_refl _)]
  cases k with
  | zero => rfl
  | succ j =>
      have hj : (0:Nat) < 2 ^ j := Nat.pos_pow_of_pos j (by norm_num)
      have hne : 2 ^ (j + 1) - 1 ≠ 0 := by
        rw [pow_succ] at hp ⊢; omega
      rw [if_neg hne, log2_unique (m := 2 ^ (j + 1) - 1) (j := j)]
      · rw [pow_succ]; omega
      · rw [pow_succ]; omega

theorem wrapInc_mod (k a : Nat) : wrapInc k a % 2 ^ k = (a % 2 ^ k + 1) % 2 ^ k := by
  have hp : 0 < 2 ^ k := Nat.pos_pow_of_pos k (by norm_num)
  unfold wrapInc
  rw [Nat.add_comm, Nat.add_mul_mod_self_right, Nat.mod_mod_of_dvd _ dvd_rfl]

theorem wrapInc_div (k a : Nat) : wrapInc k a / 2 ^ k = a / 2 ^ k := by
  have hp : 0 < 2 ^ k := Nat.pos_pow_of_pos k (by norm_num)
  unfold wrapInc
  rw [Nat.add_comm, Nat.add_mul_div_right _ _ hp,
    Nat.div_eq_of_lt (Nat.mod_lt _ hp), Nat.zero_add]

/-- C7: burst next-address function.  `LINEAR` increments the full
(`intrW`-bit) address by one; `WRAP_4`, `WRAP_8`, `WRAP_16` increment only
the low 2, 3, 4 bits, wrapping inside the window and leaving all higher bits
unchanged. -/
theorem adrNext_spec (c : Cfg) (a : Nat) :
    adrNext c a 0 = (a + 1) % 2 ^ c.intrW ∧
    (adrNext c a 1 % 4 = (a % 4 + 1) % 4 ∧ adrNext c a 1 / 4 = a / 4) ∧
    (adrNext c a 2 % 8 = (a % 8 + 1) % 8 ∧ adrNext c a 2 / 8 = a / 8) ∧
    (adrNext c a 3 % 16 = (a % 16 + 1) % 16 ∧ adrNext c a 3 / 16 = a / 16) := by
  refine ⟨rfl, ⟨?_, ?_⟩, ⟨?_, ?_⟩, ⟨?_, ?_⟩⟩
  · exact wrapInc_mod 2 a
  · exact wrapInc_div 2 a
  · exact wrapInc_mod 3 a
  · exact wrapInc_div 3 a
  · exact wrapInc_mod 4 a
  · exact wrapInc_div 4 a

/-- C8: the combined construction of `LiteDRAMNativePort` and
`WritebackCache` succeeds exactly when the backend address width is a
positive integer, the backend data width is a positive power of two, the
cache size is a positive power of two, the front data width is a positive
power of two, and the backend data width is a multiple of the front data
width.  Construction is a pure check on the arguments, performed before any
state-machine activity. -/
theorem constructOk_iff (addrWidth dramDataWidth size dataWidth : Int) :
    constructOk addrWidth dramDataWidth size dataWidth = true ↔
      (0 < addrWidth ∧
        (0 < dramDataWidth ∧ IsPow2 dramDataWidth.toNat) ∧
        (0 < size ∧ IsPow2 size.toNat) ∧
        (0 < dataWidth ∧ IsPow2 dataWidth.toNat) ∧
        dataWidth ∣ dramDataWidth) := by
  unfold constructOk portCheckOk cacheCheckOk
  simp only [Bool.and_eq_true, decide_eq_true_eq, beq_iff_eq]
  constructor
  · rintro ⟨⟨ha, hD, hDl⟩, ⟨⟨hS, hSl⟩, hd, hdl⟩, hmod⟩
    have hDp : (0 : Nat) < dramDataWidth.toNat := by omega
    have hSp : (0 : Nat) < size.toNat := by omega
    have hdp : (0 : Nat) < dataWidth.toNat := by omega
    exact ⟨ha, ⟨hD, (land_pred_eq_zero_iff hDp).1 hDl⟩,
      ⟨hS, (land_pred_eq_zero_iff hSp).1 hSl⟩,
      ⟨hd, (land_pred_eq_zero_iff hdp).1 hdl⟩,
      Int.dvd_of_emod_eq_zero hmod⟩
  · rintro ⟨ha, ⟨hD, hDp2⟩, ⟨hS, hSp2⟩, ⟨hd, hdp2⟩, hdvd⟩
    have hDp : (0 : Nat) < dramDataWidth.toNat := by omega
    have hSp : (0 : Nat) < size.toNat := by omega
    have hdp : (0 : Nat) < dataWidth.toNat := by omega
    exact ⟨⟨ha, hD, (land_pred_eq_zero_iff hDp).2 hDp2⟩,
      ⟨⟨hS, (land_pred_eq_zero_iff hSp).2 hSp2⟩, hd,
        (land_pred_eq_zero_iff hdp).2 hdp2⟩,
      Int.emod_eq_zero_of_dvd hdvd⟩

/-- C9: for a valid configuration (`ratio` and `line_count` powers of two,
the line index fitting inside the backend address), the decomposed field
widths are exact binary logarithms and they partition the front-end address:
`2 ^ offset_bits = ratio`, `2 ^ line_bits = line_count`, and
`offset_bits + line_bits + tag_bits = front_address_width
 = backend_address_width + offset_bits`. -/
theorem widths_partition (c : Cfg) (hr : IsPow2 c.wordsPer)
    (hl : IsPow2 c.nbLines) (hfit : c.lB ≤ c.dramAddrW) :
    2 ^ c.oB = c.wordsPer ∧ 2 ^ c.lB = c.nbLines ∧
      c.oB + c.lB + c.tagW = c.intrW ∧ c.intrW = c.dramAddrW + c.oB := by
  obtain ⟨k, hk⟩ := hr
  obtain ⟨m, hm⟩ := hl
  have h1 : 2 ^ c.oB = c.wordsPer := by rw [Cfg.oB, hk, log2int_two_pow]
  have h2 : 2 ^ c.lB = c.nbLines := by rw [Cfg.lB, hm, log2int_two_pow]
  refine ⟨h1, h2, ?_, rfl⟩
  have : c.oB + c.lB ≤ c.intrW := by
    rw [Cfg.intrW]; omega
  rw [Cfg.tagW]; omega

/-- The repository's own test configuration: DRAM port `addr_width=23`,
`data_width=32`; cache `size=8`, `data_width=16`, `granularity=8`. -/
def cfg923 : Cfg := ⟨23, 32, 16, 8, 8⟩

/-- C1 (amended): in CHECK, the acknowledge is asserted exactly when a
request is active, the CURRENT (live) request's tag equals the tag just
read, and the registered request is outstanding (`intr_bus_r.cyc ∧ stb`,
i.e. the request line was active on the previous CHECK tick).  The
comparison uses the live tag, not the registered one, so a freshly
presented burst-continuation address can be acknowledged on its first
tick. -/
theorem check_ack_amended (c : Cfg) (s : State) (i : Input)
    (h : s.fsm = .CHECK) :
    (outs c s i).ack =
      (i.cyc && i.stb && (tagOf c i.adr == s.tagR.tag) && s.rCyc && s.rStb) := by
  simp only [outs, ackOf, h]
  cases hcyc : i.cyc <;> cases hstb : i.stb <;>
    cases htag : (tagOf c i.adr == s.tagR.tag) <;> simp [htag]

theorem check_ack_amended_witness :
    (outs cfg923 initState
      { cyc := true, stb := true, we := false, adr := 0, datW := 0, sel := 0,
        cti := 0, bte := 0, cmdReady := false, wReady := false,
        rValidIn := false }).ack = false := by
  rw [check_ack_amended cfg923 initState _ rfl]; decide

/-- C5 (amended): in CHECK, when a request is active, the registered request
is outstanding, and the CURRENT (live) request's tag differs from the tag
just read, the controller clears the registered request's cyc/stb and moves
to EVICT when the read dirty bit is set, else directly to REFILL.  As in
C1, the failing comparison is against the live tag, not the registered
one. -/
theorem check_miss_amended (c : Cfg) (s : State) (i : Input)
    (h : s.fsm = .CHECK) (hact : i.cyc = true ∧ i.stb = true)
    (hout : s.rCyc = true ∧ s.rStb = true)
    (hmiss : (tagOf c i.adr == s.tagR.tag) = false) :
    (step c s i).rCyc = false ∧ (step c s i).rStb = false ∧
      (step c s i).fsm = (if s.tagR.dirty then Fsm.EVICT else Fsm.REFILL) := by
  obtain ⟨h1, h2⟩ := hact
  obtain ⟨h3, h4⟩ := hout
  simp only [step, h, stepCheck, h1, h2, h3, h4, hmiss]
  simp

theorem check_miss_amended_witness :
    (step cfg923 { initState with rCyc := true, rStb := true }
      { cyc := true, stb := true, we := false, adr := 4, datW := 0, sel := 0,
        cti := 0, bte := 0, cmdReady := false, wReady := false,
        rValidIn := false }).fsm = Fsm.REFILL := by
  have h := check_miss_amended cfg923 { initState with rCyc := true, rStb := true }
    { cyc := true, stb := true, we := false, adr := 4, datW := 0, sel := 0,
      cti := 0, bte := 0, cmdReady := false, wReady := false, rValidIn := false }
    rfl ⟨rfl, rfl⟩ ⟨rfl, rfl⟩ (by decide)
  rw [h.2.2]; decide

/-- C6: the front-end acknowledge is combinationally driven only in the
CHECK state; in EVICT and REFILL it is never asserted, so no front-end
request is acknowledged until miss handling completes and the FSM returns
to CHECK. -/
theorem no_ack_outside_check (c : Cfg) (s : State) (i : Input)
    (h : s.fsm = .EVICT ∨ s.fsm = .REFILL) : (outs c s i).ack = false := by
  cases h with
  | inl h => simp [outs, h]
  | inr h => simp [outs, h]

theorem no_ack_outside_check_witness :
    (outs cfg923 { initState with fsm := .EVICT }
      { cyc := true, stb := true, we := false, adr := 0, datW := 0, sel := 0,
        cti := 0, bte := 0, cmdReady := false, wReady := false,
        rValidIn := false }).ack = false :=
  no_ack_outside_check cfg923 { initState with fsm := .EVICT } _ (Or.inl rfl)

/-- Iterated execution over a stream of inputs. -/
def iterate (c : Cfg) (s : State) (ins : Nat → Input) : Nat → State
  | 0 => s
  | n + 1 => step c (iterate c s ins n) (ins n)

theorem frame_step (c : Cfg) (s : State) (i : Input)
    (h : s.fsm = .EVICT ∨ s.fsm = .REFILL) :
    (step c s i).rCyc = s.rCyc ∧ (step c s i).rStb = s.rStb ∧
      (step c s i).rAdr = s.rAdr ∧ (step c s i).tagR = s.tagR ∧
      (step c s i).datR = s.datR := by
  cases h with
  | inl h => simp [step, h, stepEvict]
  | inr h => simp [step, h, stepRefill]

theorem iterate_frame (c : Cfg) (s : State) (ins : Nat → Input) (n : Nat)
    (h : ∀ t, t < n →
      (iterate c s ins t).fsm = .EVICT ∨ (iterate c s ins t).fsm = .REFILL) :
    (iterate c s ins n).rCyc = s.rCyc ∧ (iterate c s ins n).rStb = s.rStb ∧
      (iterate c s ins n).rAdr = s.rAdr ∧ (iterate c s ins n).tagR = s.tagR ∧
      (iterate c s ins n).datR = s.datR := by
  induction n with
  | zero => exact ⟨rfl, rfl, rfl, rfl, rfl⟩
  | succ m ih =>
      have hm := ih (fun t ht => h t (Nat.lt_succ_of_lt ht))
      have hs := frame_step c (iterate c s ins m) (ins m) (h m (Nat.lt_succ_self m))
      exact ⟨hs.1.trans hm.1, hs.2.1.trans hm.2.1, hs.2.2.1.trans hm.2.2.1,
        hs.2.2.2.1.trans hm.2.2.2.1, hs.2.2.2.2.trans hm.2.2.2.2⟩

/-- C10: while the FSM stays in EVICT or REFILL, the registered request and
the tag/data read-port registers are never modified and the store read
enables stay deasserted; consequently, on any EVICT tick, the backend
command address is built from the held stored-tag read and the write beat
carries the held evicted line data, however many ticks have passed since
CHECK was left. -/
theorem evict_refill_frame (c : Cfg) (s : State) (ins : Nat → Input) (n : Nat)
    (h : ∀ t, t < n →
      (iterate c s ins t).fsm = .EVICT ∨ (iterate c s ins t).fsm = .REFILL) :
    ((iterate c s ins n).rCyc = s.rCyc ∧ (iterate c s ins n).rStb = s.rStb ∧
      (iterate c s ins n).rAdr = s.rAdr ∧ (iterate c s ins n).tagR = s.tagR ∧
      (iterate c s ins n).datR = s.datR) ∧
    (∀ t, t < n → (outs c (iterate c s ins t) (ins t)).tagRpEn = false ∧
      (outs c (iterate c s ins t) (ins t)).datRpEn = false) ∧
    (∀ t, t < n → (iterate c s ins t).fsm = .EVICT →
      (outs c (iterate c s ins t) (ins t)).cmdAddr =
        mkDramAddr c (lineOf c s.rAdr) s.tagR.tag ∧
      (outs c (iterate c s ins t) (ins t)).wData = s.datR) := by
  refine ⟨iterate_frame c s ins n h, ?_, ?_⟩
  · intro t ht
    cases h t ht with
    | inl he => simp [outs, he]
    | inr he => simp [outs, he]
  · intro t ht he
    have hf := iterate_frame c s ins t (fun u hu => h u (hu.trans ht))
    constructor
    · simp [outs, he, hf.2.2.1, hf.2.2.2.1]
    · simp [outs, he, hf.2.2.2.2]

/-- A directly constructed EVICT-entry state used by witnesses. -/
def evEntry : State :=
  { initState with fsm := .EVICT, rAdr := 5, tagR := ⟨3, true⟩, datR := 77 }

/-- An all-idle input (no request, no backend readiness). -/
def idleIn : Input :=
  { cyc := false, stb := false, we := false, adr := 0, datW := 0, sel := 0,
    cti := 0, bte := 0, cmdReady := false, wReady := false, rValidIn := false }

theorem evict_refill_frame_witness :
    (iterate cfg923 evEntry (fun _ => idleIn) 2).tagR = ⟨3, true⟩ :=
  (evict_refill_frame cfg923 _ _ 2 (by decide)).1.2.2.2.1

/-- A command handshake completes on a tick where the command channel is
valid and the backend is ready. -/
def cmdHandB (c : Cfg) (s : State) (i : Input) : Bool :=
  (outs c s i).cmdValid && i.cmdReady

/-- A write-beat handshake completes on a tick where the write channel is
valid and the backend is ready. -/
def wHandB (c : Cfg) (s : State) (i : Input) : Bool :=
  (outs c s i).wValid && i.wReady

/-- Number of command handshakes completed during the first `n` ticks. -/
def countCmd (c : Cfg) (s : State) (ins : Nat → Input) : Nat → Nat
  | 0 => 0
  | n + 1 =>
      countCmd c s ins n +
        (if cmdHandB c (iterate c s ins n) (ins n) then 1 else 0)

/-- Number of write-beat handshakes completed during the first `n` ticks. -/
def countW (c : Cfg) (s : State) (ins : Nat → Input) : Nat → Nat
  | 0 => 0
  | n + 1 =>
      countW c s ins n +
        (if wHandB c (iterate c s ins n) (ins n) then 1 else 0)

theorem evict_seg (c : Cfg) (s : State) (ins : Nat → Input)
    (hs : s.fsm = .EVICT) (hc : s.evCmd = false) (hw : s.evW = false)
    (n : Nat) (hseg : ∀ t, t ≤ n → (iterate c s ins t).fsm = .EVICT) :
    countCmd c s ins n = (if (iterate c s ins n).evCmd then 1 else 0) ∧
      countW c s ins n = (if (iterate c s ins n).evW then 1 else 0) := by
  induction n with
  | zero => simp [iterate, countCmd, countW, hc, hw]
  | succ m ih =>
      obtain ⟨ih1, ih2⟩ := ih (fun t ht => hseg t (Nat.le_succ_of_le ht))
      have hm := hseg m (Nat.le_succ_of_le (Nat.le_refl m))
      have hm1 := hseg (m + 1) (Nat.le_refl _)
      have hstep : iterate c s ins (m + 1) =
          stepEvict c (iterate c s ins m) (ins m) := by
        rw [iterate, step, hm]
      have hnx : ¬((iterate c s ins m).evCmd = true ∧
          (iterate c s ins m).evW = true) := by
        rintro ⟨e1, e2⟩
        rw [hstep] at hm1
        simp [stepEvict, e1, e2] at hm1
      have hcmd : cmdHandB c (iterate c s ins m) (ins m) =
          (!(iterate c s ins m).evCmd && (ins m).cmdReady) := by
        simp [cmdHandB, outs, hm]
      have hwh : wHandB c (iterate c s ins m) (ins m) =
          (!(iterate c s ins m).evW && (ins m).wReady) := by
        simp [wHandB, outs, hm]
      rw [countCmd, countW, hcmd, hwh, hstep]
      rcases Bool.eq_false_or_eq_true (iterate c s ins m).evCmd with e1 | e1
      · rcases Bool.eq_false_or_eq_true (iterate c s ins m).evW with e2 | e2
        · exact absurd ⟨e1, e2⟩ hnx
        · cases hr2 : (ins m).wReady <;> simp_all [stepEvict]
      · rcases Bool.eq_false_or_eq_true (iterate c s ins m).evW with e2 | e2
        · cases hr1 : (ins m).cmdReady <;> simp_all [stepEvict]
        · cases hr1 : (ins m).cmdReady <;> cases hr2 : (ins m).wReady <;>
            simp_all [stepEvict]

/-- C4: during one complete EVICT pass (entered with both completion flags
clear, left after `n` ticks), exactly one backend command handshake and
exactly one write-beat handshake complete; every tick of the pass offers
`write_flag = 1`, `last_flag = 0`, address `Cat(evicted line, stored tag
read for that line)` on the command channel and the full held line data
with all byte lanes enabled on the write channel; each channel keeps its
valid asserted exactly until its own handshake has completed; the exit
happens only when both flags are set (they are set on the last tick of the
pass), goes to REFILL, and resets both flags. -/
theorem evict_pass (c : Cfg) (s : State) (ins : Nat → Input) (n : Nat)
    (hs : s.fsm = .EVICT) (hc : s.evCmd = false) (hw : s.evW = false)
    (hseg : ∀ t, t < n → (iterate c s ins t).fsm = .EVICT)
    (hexit : (iterate c s ins n).fsm ≠ .EVICT) :
    countCmd c s ins n = 1 ∧ countW c s ins n = 1 ∧
      (iterate c s ins n).fsm = .REFILL ∧
      (iterate c s ins n).evCmd = false ∧ (iterate c s ins n).evW = false ∧
      1 ≤ n ∧ (iterate c s ins (n - 1)).evCmd = true ∧
      (iterate c s ins (n - 1)).evW = true ∧
      (∀ t, t < n →
        (outs c (iterate c s ins t) (ins t)).cmdWe = true ∧
        (outs c (iterate c s ins t) (ins t)).cmdLast = false ∧
        (outs c (iterate c s ins t) (ins t)).cmdAddr =
          mkDramAddr c (lineOf c s.rAdr) s.tagR.tag ∧
        (outs c (iterate c s ins t) (ins t)).wData = s.datR ∧
        (outs c (iterate c s ins t) (ins t)).wWe = 2 ^ (c.dramDataW / 8) - 1 ∧
        (outs c (iterate c s ins t) (ins t)).cmdValid =
          decide (countCmd c s ins t = 0) ∧
        (outs c (iterate c s ins t) (ins t)).wValid =
          decide (countW c s ins t = 0)) := by
  cases n with
  | zero => exact absurd hs hexit
  | succ m =>
      have hseg2 : ∀ t, t ≤ m → (iterate c s ins t).fsm = .EVICT :=
        fun t ht => hseg t (Nat.lt_succ_of_le ht)
      obtain ⟨g1, g2⟩ := evict_seg c s ins hs hc hw m hseg2
      have hm := hseg2 m (Nat.le_refl m)
      have hstep : iterate c s ins (m + 1) =
          stepEvict c (iterate c s ins m) (ins m) := by
        rw [iterate, step, hm]
      have hboth : (iterate c s ins m).evCmd = true ∧
          (iterate c s ins m).evW = true := by
        by_contra hnb
        apply hexit
        rw [hstep]
        rcases Bool.eq_false_or_eq_true (iterate c s ins m).evCmd with e1 | e1 <;>
          rcases Bool.eq_false_or_eq_true (iterate c s ins m).evW with e2 | e2 <;>
            simp [stepEvict, e1, e2] <;> tauto
      have hcnt1 : countCmd c s ins m = 1 := by rw [g1, hboth.1]; rfl
      have hcnt2 : countW c s ins m = 1 := by rw [g2, hboth.2]; rfl
      have hcmd : cmdHandB c (iterate c s ins m) (ins m) = false := by
        simp [cmdHandB, outs, hm, hboth.1]
      have hwh : wHandB c (iterate c s ins m) (ins m) = false := by
        simp [wHandB, outs, hm, hboth.2]
      refine ⟨?_, ?_, ?_, ?_, ?_, Nat.le_add_left 1 m, ?_, ?_, ?_⟩
      · rw [countCmd, hcmd, hcnt1]; rfl
      · rw [countW, hwh, hcnt2]; rfl
      · rw [hstep]; simp [stepEvict, hboth.1, hboth.2]
      · rw [hstep]; simp [stepEvict, hboth.1, hboth.2]
      · rw [hstep]; simp [stepEvict, hboth.1, hboth.2]
      · simpa using hboth.1
      · simpa using hboth.2
      · intro t ht
        have hse : ∀ u, u ≤ t → (iterate c s ins u).fsm = .EVICT :=
          fun u hu => hseg u (Nat.lt_of_le_of_lt hu ht)
        obtain ⟨p1, p2⟩ := evict_seg c s ins hs hc hw t hse
        have hft := iterate_frame c s ins t
          (fun u hu => Or.inl (hse u (Nat.le_of_lt hu)))
        have hte := hse t (Nat.le_refl t)
        refine ⟨?_, ?_, ?_, ?_, ?_, ?_, ?_⟩
        · simp [outs, hte]
        · simp [outs, hte]
        · simp [outs, hte, hft.2.2.1, hft.2.2.2.1]
        · simp [outs, hte, hft.2.2.2.2]
        · simp [outs, hte]
        · rw [show (outs c (iterate c s ins t) (ins t)).cmdValid =
            !(iterate c s ins t).evCmd by simp [outs, hte], p1]
          rcases Bool.eq_false_or_eq_true (iterate c s ins t).evCmd with e1 | e1 <;>
            simp [e1]
        · rw [show (outs c (iterate c s ins t) (ins t)).wValid =
            !(iterate c s ins t).evW by simp [outs, hte], p2]
          rcases Bool.eq_false_or_eq_true (iterate c s ins t).evW with e2 | e2 <;>
            simp [e2]

/-- Inputs for the EVICT-pass witness: backend ready on the first tick. -/
def evReadyIns : Nat → Input
  | 0 => { idleIn with cmdReady := true, wReady := true }
  | _ + 1 => idleIn

theorem evict_pass_witness :
    countCmd cfg923 evEntry evReadyIns 2 = 1 ∧
      (iterate cfg923 evEntry evReadyIns 2).fsm = Fsm.REFILL := by
  have h := evict_pass cfg923 evEntry evReadyIns 2 rfl rfl rfl
    (by decide) (by decide)
  exact ⟨h.1, h.2.2.1⟩

theorem combine_full (g : Nat) (n : Nat) (old new : Nat) :
    combine g n (2 ^ n - 1) old new = new % 2 ^ (g * n) := by
  induction n generalizing old new with
  | zero => simp [combine, Nat.mod_one]
  | succ m ih =>
      have hm : (0:Nat) < 2 ^ m := Nat.pos_pow_of_pos m (by norm_num)
      have he1 : (2 ^ (m + 1) - 1) % 2 = 1 := by rw [pow_succ]; omega
      have he2 : (2 ^ (m + 1) - 1) / 2 = 2 ^ m - 1 := by rw [pow_succ]; omega
      rw [combine, he1, he2, if_pos rfl, ih,
        Nat.mul_succ, pow_add, Nat.mul_comm (2 ^ (g * m)) (2 ^ g), Nat.mod_mul]

theorem mkDramAddr_mod (c : Cfg) (l t : Nat) :
    mkDramAddr c l t % 2 ^ c.lB = l % 2 ^ c.lB := by
  unfold mkDramAddr
  rw [Nat.add_mul_mod_self_right, Nat.mod_mod_of_dvd _ dvd_rfl]

/-- Basic state invariant, preserved under arbitrary inputs: the completion
flags and the backend channel bookkeeping are consistent with the FSM state
(nothing pending in CHECK; in EVICT at most one write command and write
beat, the command targeting the registered line; in REFILL at most one read
command, addressed at the registered line and tag, and once the beat is
accepted the tag entry is committed), the registered request is cleared
throughout miss handling, and the backend memory words fit the data
width. -/
structure InvB (c : Cfg) (s : State) : Prop where
  checkAll : s.fsm = .CHECK → s.evCmd = false ∧ s.evW = false ∧
    s.rfCmd = false ∧ s.rfR = false ∧ s.pW = none ∧ s.pWD = none ∧ s.pR = none
  evictA : s.fsm = .EVICT → s.rfCmd = false ∧ s.rfR = false ∧ s.pR = none ∧
    s.rCyc = false ∧ s.rStb = false
  evictPW : s.fsm = .EVICT →
    s.pW.isSome = (s.evCmd && !s.evW) ∧ s.pWD.isSome = (s.evW && !s.evCmd)
  evictPWa : s.fsm = .EVICT → ∀ a, s.pW = some a →
    a % 2 ^ c.lB = lineOf c s.rAdr
  refillA : s.fsm = .REFILL → s.evCmd = false ∧ s.evW = false ∧
    s.pW = none ∧ s.pWD = none ∧ s.rCyc = false ∧ s.rStb = false
  refillFlag : s.fsm = .REFILL → s.rfR = true → s.rfCmd = true
  refillPR : s.fsm = .REFILL → s.pR.isSome = (s.rfCmd && !s.rfR) ∧
    ∀ a, s.pR = some a → a = mkDramAddr c (lineOf c s.rAdr) (tagOf c s.rAdr)
  refillTag : s.fsm = .REFILL → s.rfR = true →
    s.tagMem (lineOf c s.rAdr) = ⟨tagOf c s.rAdr, false⟩
  memBound : ∀ a, s.mem a < 2 ^ c.dramDataW

theorem invB_init (c : Cfg) : InvB c initState := by
  constructor <;> intro h <;> simp_all [initState]

theorem invB_stepCheck (c : Cfg) {s : State} (h : InvB c s)
    (hf : s.fsm = .CHECK) (i : Input) : InvB c (step c s i) := by
  obtain ⟨e1, e2, e3, e4, e5, e6, e7⟩ := h.checkAll hf
  have hb := h.memBound
  have hstep : step c s i = stepCheck c s i := by rw [step, hf]
  rw [hstep]
  constructor <;> intro hg <;>
    simp_all [stepCheck, dramStep] <;>
    split at hg <;> simp_all

theorem invB_stepEvict (c : Cfg) {s : State} (h : InvB c s)
    (hf : s.fsm = .EVICT) (i : Input) : InvB c (step c s i) := by
  obtain ⟨a1, a2, a3, a4, a5⟩ := h.evictA hf
  obtain ⟨p1, p2⟩ := h.evictPW hf
  have pa := h.evictPWa hf
  have hb := h.memBound
  have hD : (0:Nat) < 2 ^ c.dramDataW := Nat.pos_pow_of_pos _ (by norm_num)
  have hmod : ∀ d : Nat, d % 2 ^ c.dramDataW < 2 ^ c.dramDataW :=
    fun d => Nat.mod_lt _ hD
  have hL : lineOf c s.rAdr % 2 ^ c.lB = lineOf c s.rAdr :=
    Nat.mod_mod_of_dvd _ dvd_rfl
  have hstep : step c s i = stepEvict c s i := by rw [step, hf]
  rw [hstep]
  cases he1 : s.evCmd <;> cases he2 : s.evW
  · -- both flags clear: nothing pending yet
    have hpw : s.pW = none := by
      rw [he1, he2] at p1; cases hx : s.pW <;> simp_all
    have hpwd : s.pWD = none := by
      rw [he1, he2] at p2; cases hx : s.pWD <;> simp_all
    cases hr1 : i.cmdReady <;> cases hr2 : i.wReady <;>
      constructor <;> intro hg <;>
        simp_all [stepEvict, dramStep, upd, mkDramAddr_mod] <;>
        split <;> simp_all
  · -- write beat done, command not yet
    have hpw : s.pW = none := by
      rw [he1, he2] at p1; cases hx : s.pW <;> simp_all
    have hpwd : ∃ d, s.pWD = some d := by
      rw [he1, he2] at p2; cases hx : s.pWD <;> simp_all
    obtain ⟨d, hpwd⟩ := hpwd
    cases hr1 : i.cmdReady <;>
      constructor <;> intro hg <;>
        simp_all [stepEvict, dramStep, upd, mkDramAddr_mod] <;>
        split <;> simp_all
  · -- command done, write beat not yet
    have hpw : ∃ w, s.pW = some w := by
      rw [he1, he2] at p1; cases hx : s.pW <;> simp_all
    obtain ⟨w, hpw⟩ := hpw
    have paw := pa w hpw
    have hpwd : s.pWD = none := by
      rw [he1, he2] at p2; cases hx : s.pWD <;> simp_all
    cases hr2 : i.wReady <;>
      constructor <;> intro hg <;>
        simp_all [stepEvict, dramStep, upd] <;>
        split <;> simp_all
  · -- both done: exit to REFILL, nothing pending
    have hpw : s.pW = none := by
      rw [he1, he2] at p1; cases hx : s.pW <;> simp_all
    have hpwd : s.pWD = none := by
      rw [he1, he2] at p2; cases hx : s.pWD <;> simp_all
    constructor <;> intro hg <;>
      simp_all [stepEvict, dramStep]

theorem invB_stepRefill (c : Cfg) {s : State} (h : InvB c s)
    (hf : s.fsm = .REFILL) (i : Input) : InvB c (step c s i) := by
  obtain ⟨a1, a2, a3, a4, a5, a6⟩ := h.refillA hf
  obtain ⟨q1, q2⟩ := h.refillPR hf
  have qf := h.refillFlag hf
  have qt := h.refillTag hf
  have hb := h.memBound
  have hstep : step c s i = stepRefill c s i := by rw [step, hf]
  rw [hstep]
  cases he1 : s.rfCmd <;> cases he2 : s.rfR
  · -- no command accepted yet, no beat: possibly capture the read command
    have hpr : s.pR = none := by
      rw [he1, he2] at q1; cases hx : s.pR <;> simp_all
    cases hr1 : i.cmdReady <;>
      constructor <;> intro hg <;>
        simp_all [stepRefill, dramStep, upd] <;>
        split <;> simp_all
  · -- beat accepted without command: excluded by the flag invariant
    rw [he2] at qf
    rw [qf rfl] at he1
    exact absurd he1 (by simp)
  · -- command accepted, waiting for the read beat
    have hpr : ∃ r, s.pR = some r := by
      rw [he1, he2] at q1; cases hx : s.pR <;> simp_all
    obtain ⟨r, hpr⟩ := hpr
    have qar := q2 r hpr
    cases hrv : i.rValidIn <;>
      constructor <;> intro hg <;>
        simp_all [stepRefill, dramStep, upd] <;>
        split <;> simp_all
  · -- both done: exit to CHECK, nothing pending
    have hpr : s.pR = none := by
      rw [he1, he2] at q1; cases hx : s.pR <;> simp_all
    constructor <;> intro hg <;>
      simp_all [stepRefill, dramStep]

theorem invB_step (c : Cfg) {s : State} (h : InvB c s) (i : Input) :
    InvB c (step c s i) := by
  cases hf : s.fsm with
  | CHECK => exact invB_stepCheck c h hf i
  | EVICT => exact invB_stepEvict c h hf i
  | REFILL => exact invB_stepRefill c h hf i

theorem reachAny_invB {c : Cfg} {s : State} (h : ReachAny c s) : InvB c s := by
  induction h with
  | init => exact invB_init c
  | next hr i ih => exact invB_step c ih i

theorem reachAny_runList (c : Cfg) (l : List Input) {s : State}
    (h : ReachAny c s) : ReachAny c (runList c s l) := by
  induction l generalizing s with
  | nil => exact h
  | cons x xs ih => exact ih (h.next x)

/-- C3: on every reachable REFILL-to-CHECK transition, the tag store entry
at the registered (target) line holds the registered request's tag with the
dirty bit clear; moreover it already held that value before the transition
tick, the commit having happened when the read beat was accepted. -/
theorem refill_commit (c : Cfg) {s : State} (i : Input) (hr : ReachAny c s)
    (hf : s.fsm = .REFILL) (hnext : (step c s i).fsm = .CHECK) :
    s.tagMem (lineOf c s.rAdr) = ⟨tagOf c s.rAdr, false⟩ ∧
      (step c s i).tagMem (lineOf c s.rAdr) = ⟨tagOf c s.rAdr, false⟩ := by
  have hB := reachAny_invB hr
  have hstep : step c s i = stepRefill c s i := by rw [step, hf]
  have hex : s.rfCmd = true ∧ s.rfR = true := by
    by_contra hc
    rw [hstep] at hnext
    rcases Bool.eq_false_or_eq_true s.rfCmd with e1 | e1 <;>
      rcases Bool.eq_false_or_eq_true s.rfR with e2 | e2 <;>
        simp [stepRefill, e1, e2] at hnext <;> tauto
  have h1 := hB.refillTag hf hex.2
  refine ⟨h1, ?_⟩
  rw [hstep]
  simp [stepRefill, hex.2, h1]

/-- A single read request at address 4 (tag 1, line 0 in `cfg923`). -/
def rq4 : Input :=
  { cyc := true, stb := true, we := false, adr := 4, datW := 0, sel := 0,
    cti := 0, bte := 0, cmdReady := false, wReady := false, rValidIn := false }

/-- A four-tick trace driving a clean miss at address 4 through REFILL up to
the point where both completion flags are set. -/
def primingTrace : List Input :=
  [rq4, rq4, { rq4 with cmdReady := true }, { rq4 with rValidIn := true }]

theorem refill_commit_witness :
    (runList cfg923 initState primingTrace).tagMem
        (lineOf cfg923 (runList cfg923 initState primingTrace).rAdr) =
      ⟨tagOf cfg923 (runList cfg923 initState primingTrace).rAdr, false⟩ :=
  (refill_commit cfg923 idleIn
    (reachAny_runList cfg923 primingTrace (ReachAny.init))
    (by decide) (by decide)).1

/-- Conforming-trace invariant: the coherence core.  `g1` states that every
clean line agrees with the backend memory at its tagged address; the other
fields track the read-register/dirty-bit relationships that keep `g1`
inductive (a dirty read register implies the addressed line is dirty in the
store, an EVICT pass always targets a dirty line, and a completed refill
beat has committed the backend word for the registered address). -/
structure InvC (c : Cfg) (s : State) (i : Input) : Prop where
  g1 : ∀ l, l < 2 ^ c.lB → (s.tagMem l).dirty = false →
    s.datMem l = s.mem (mkDramAddr c l (s.tagMem l).tag)
  readDirty : s.fsm = .CHECK → i.cyc = true → i.stb = true →
    s.rCyc = true → s.rStb = true → s.tagR.dirty = true →
    (s.tagMem (lineOf c i.adr)).dirty = true
  evictDirty : s.fsm = .EVICT → (s.tagMem (lineOf c s.rAdr)).dirty = true
  refillDat : s.fsm = .REFILL → s.rfR = true →
    s.datMem (lineOf c s.rAdr) =
      s.mem (mkDramAddr c (lineOf c s.rAdr) (tagOf c s.rAdr))

theorem invC_init (c : Cfg) (i : Input) : InvC c initState i := by
  constructor <;> intro h <;> simp_all [initState]

theorem adrNext_congr (c : Cfg) (a : Nat) {b1 b2 : Nat} (h : b1 % 4 = b2 % 4) :
    adrNext c a b1 = adrNext c a b2 := by
  unfold adrNext
  rw [h]

theorem invC_stepEvict (c : Cfg) {s : State} {ip i : Input} (hB : InvB c s)
    (hC : InvC c s ip) (hf : s.fsm = .EVICT) : InvC c (step c s ip) i := by
  obtain ⟨a1, a2, a3, a4, a5⟩ := hB.evictA hf
  have pa := hB.evictPWa hf
  have hed := hC.evictDirty hf
  have hL : lineOf c s.rAdr % 2 ^ c.lB = lineOf c s.rAdr :=
    Nat.mod_mod_of_dvd _ dvd_rfl
  have hstep : step c s ip = stepEvict c s ip := by rw [step, hf]
  rw [hstep]
  have hkey : ∀ l, l < 2 ^ c.lB → (s.tagMem l).dirty = false →
      ∀ a, (if (!s.evCmd && ip.cmdReady) = true then
          some (mkDramAddr c (lineOf c s.rAdr) s.tagR.tag) else s.pW) = some a →
      mkDramAddr c l (s.tagMem l).tag ≠ a := by
    intro l hl hd a hsome heq
    have hll : mkDramAddr c l (s.tagMem l).tag % 2 ^ c.lB = l := by
      rw [mkDramAddr_mod]; exact Nat.mod_eq_of_lt hl
    have hla : a % 2 ^ c.lB = lineOf c s.rAdr := by
      by_cases hcap : (!s.evCmd && ip.cmdReady) = true
      · rw [if_pos hcap] at hsome
        cases hsome
        rw [mkDramAddr_mod, hL]
      · rw [if_neg hcap] at hsome
        exact pa a hsome
    have hne : l ≠ lineOf c s.rAdr := by
      intro he
      rw [he, hed] at hd
      exact absurd hd (by simp)
    rw [heq, hla] at hll
    exact hne hll.symm
  constructor
  · -- clean lines still agree with the backend memory
    intro l hl hd
    simp only [stepEvict, dramStep, Bool.and_true] at hd ⊢
    have hg := hC.g1 l hl hd
    rcases hpa : (if (!s.evCmd && ip.cmdReady) = true then
        some (mkDramAddr c (lineOf c s.rAdr) s.tagR.tag) else s.pW) with _ | a
    · rcases hpd : (if (!s.evW && ip.wReady) = true then
          some s.datR else s.pWD) with _ | d <;> exact hg
    · rcases hpd : (if (!s.evW && ip.wReady) = true then
          some s.datR else s.pWD) with _ | d
      · exact hg
      · have hne := hkey l hl hd a hpa
        show s.datMem l = if mkDramAddr c l (s.tagMem l).tag = a
          then d % 2 ^ c.dramDataW else s.mem (mkDramAddr c l (s.tagMem l).tag)
        rw [if_neg hne]
        exact hg
  · -- the controller never returns to CHECK from EVICT
    intro hg
    simp only [stepEvict] at hg
    split at hg <;> exact absurd hg (by decide)
  · -- an ongoing EVICT still targets a dirty line
    intro hg
    simp only [stepEvict]
    exact hed
  · -- no refill beat can have completed yet
    intro h1 h2
    simp only [stepEvict] at h2
    rw [a2] at h2
    exact absurd h2 (by decide)

theorem invC_stepRefill (c : Cfg) {s : State} {ip i : Input}
    (hgl : c.gran * c.lanes = c.dramDataW) (hB : InvB c s) (hC : InvC c s ip)
    (hf : s.fsm = .REFILL) : InvC c (step c s ip) i := by
  obtain ⟨a1, a2, a3, a4, a5, a6⟩ := hB.refillA hf
  obtain ⟨q1, q2⟩ := hB.refillPR hf
  have hstep : step c s ip = stepRefill c s ip := by rw [step, hf]
  rw [hstep]
  have hcommit : ∀ r, s.pR = some r →
      combine c.gran c.lanes (2 ^ c.lanes - 1) (s.datMem (lineOf c s.rAdr))
          (s.mem r) =
        s.mem (mkDramAddr c (lineOf c s.rAdr) (tagOf c s.rAdr)) := by
    intro r hr
    rw [combine_full, hgl, Nat.mod_eq_of_lt (hB.memBound r), q2 r hr]
  constructor
  · -- clean lines still agree with the backend memory
    intro l hl hd
    rcases hpr : s.pR with _ | r
    · simp_all [stepRefill, dramStep, upd]
      exact hC.g1 l hl (by simp_all) |>.symm ▸ (hC.g1 l hl (by simp_all))
    · have hcm := hcommit r hpr
      have hgg := hC.g1 l hl
      cases hrv : ip.rValidIn <;> cases hrr : s.rfR <;>
        simp_all [stepRefill, dramStep, upd] <;>
        by_cases hle : l = lineOf c s.rAdr <;>
          simp_all
  · -- a return to CHECK leaves no outstanding registered request
    intro h1 h2 h3 h4
    simp only [stepRefill] at h4
    rw [a5] at h4
    exact absurd h4 (by decide)
  · -- the controller never enters EVICT from REFILL
    intro hg
    simp only [stepRefill] at hg
    split at hg <;> exact absurd hg (by decide)
  · -- once the beat is in, the line holds the backend word
    intro h1 h2
    rcases hpr : s.pR with _ | r
    · cases hrr : s.rfR <;> simp_all [stepRefill, dramStep, upd] <;>
        exact hC.refillDat hf (by simp_all)
    · have hcm := hcommit r hpr
      have hfl := hB.refillFlag hf
      cases hrv : ip.rValidIn <;> cases hrr : s.rfR <;>
        simp_all [stepRefill, dramStep, upd] <;>
        exact hC.refillDat hf rfl

theorem ackOf_true {c : Cfg} {s : State} {ip : Input}
    (hk : ackOf c s ip = true) :
    ip.cyc = true ∧ ip.stb = true ∧ tagOf c ip.adr = s.tagR.tag ∧
      s.rCyc = true ∧ s.rStb = true := by
  unfold ackOf at hk
  cases hfs : s.fsm <;> rw [hfs] at hk <;> simp_all

theorem conforms_hold {c : Cfg} {s : State} {ip i : Input}
    (hc : conformsB c s ip i = true) (ha : ip.cyc = true) (hs : ip.stb = true)
    (hk : ackOf c s ip = false) :
    i.adr = ip.adr ∧ i.we = ip.we ∧ i.datW = ip.datW ∧ i.sel = ip.sel ∧
      i.cti % 8 = ip.cti % 8 ∧ i.bte % 4 = ip.bte % 4 := by
  unfold conformsB at hc
  rw [ha, hs, hk] at hc
  simp at hc
  tauto

theorem conforms_ack {c : Cfg} {s : State} {ip i : Input}
    (hc : conformsB c s ip i = true) (ha : ip.cyc = true) (hs : ip.stb = true)
    (hk : ackOf c s ip = true) :
    i.bte % 4 = ip.bte % 4 ∧
      (ip.cti % 8 = 2 → i.adr = adrNext c ip.adr i.bte) ∧
      (¬ip.cti % 8 = 2 → i.cyc = false) := by
  unfold conformsB at hc
  rw [ha, hs, hk] at hc
  simp at hc
  by_cases hcti : ip.cti % 8 = 2 <;> simp [hcti] at hc <;> tauto

theorem invC_stepCheck (c : Cfg) {s : State} {ip i : Input} (hB : InvB c s)
    (hC : InvC c s ip) (hc : conformsB c s ip i = true)
    (hf : s.fsm = .CHECK) : InvC c (step c s ip) i := by
  obtain ⟨e1, e2, e3, e4, e5, e6, e7⟩ := hB.checkAll hf
  have hstep : step c s ip = stepCheck c s ip := by rw [step, hf]
  rw [hstep]
  constructor
  · -- a write hit marks its target line dirty, so clean lines are untouched
    intro l hl hd
    simp only [stepCheck, dramStep, e5, e6, e7] at hd ⊢
    split at hd
    · rename_i hcond
      by_cases hle : l = lineOf c ip.adr
      · subst hle
        simp [upd] at hd
      · simp only [upd] at hd
        rw [if_neg hle] at hd
        simp only [hcond, if_true, upd]
        rw [if_neg hle, if_neg hle]
        exact hC.g1 l hl hd
    · rename_i hcond
      simp only [if_neg hcond]
      exact hC.g1 l hl hd
  · -- the read register correctly anticipates the dirty bit
    intro hg h1 h2 h3 h4 h5
    simp only [stepCheck] at hg h3 h4 h5 ⊢
    split at h3
    · exact absurd h3 (by decide)
    rename_i hmiss
    split at h4
    · exact absurd h4 (by decide)
    cases hk : ackOf c s ip
    · obtain ⟨hadr, _, _, _, _, _⟩ := conforms_hold hc h3 h4 hk
      rw [hk] at h5
      split at h5
      · rename_i hren
        simp at h5
        rw [hadr]
        split
        · rename_i hcond
          exact absurd hcond (by simp)
        · exact h5
      · rename_i hren
        have hrc : s.rCyc = true := by
          rcases Bool.eq_false_or_eq_true s.rCyc with e | e <;> simp_all
        have hrs : s.rStb = true := by
          rcases Bool.eq_false_or_eq_true s.rStb with e | e <;> simp_all
        have hkey := hC.readDirty hf h3 h4 hrc hrs h5
        rw [hadr]
        split
        · rename_i hcond
          exact absurd hcond (by simp)
        · exact hkey
    · obtain ⟨hT1, hT2, hT3, hT4, hT5⟩ := ackOf_true hk
      obtain ⟨hbte, hincr, hclassic⟩ := conforms_ack hc h3 h4 hk
      by_cases hcti : ip.cti % 8 = 2
      · have hadr : i.adr = adrNext c ip.adr ip.bte := by
          rw [hincr hcti]
          exact adrNext_congr c ip.adr hbte
        rw [hk] at h5
        split at h5
        · rename_i hren
          simp only [Bool.true_and] at h5
          rw [if_pos (by simp [hcti])] at h5
          rw [hadr]
          split
          · rename_i hcond
            simp only [upd]
            by_cases hle :
                lineOf c (adrNext c ip.adr ip.bte) = lineOf c ip.adr
            · simp [hle]
            · rw [if_neg hle]
              exact h5
          · exact h5
        · rename_i hren
          exact absurd (by simp [h3, h4]) hren
      · exact absurd (hclassic hcti) (by simp [h1])
  · -- entering EVICT means the missed line is dirty
    intro hg
    simp only [stepCheck] at hg ⊢
    split at hg
    · rename_i hmiss
      split at hg
      · rename_i hdirty
        obtain ⟨⟨⟨hcy, hsb⟩, hnt⟩, hrc⟩ :
            ((ip.cyc = true ∧ ip.stb = true) ∧
              ¬tagOf c ip.adr = s.tagR.tag) ∧ s.rCyc = true ∧ s.rStb = true := by
          constructor
          · constructor
            · constructor <;> simp_all
            · simp_all
          · constructor <;> simp_all
        have hkey := hC.readDirty hf hcy hsb hrc.1 hrc.2 hdirty
        have hnw : (ip.cyc && ip.stb && (tagOf c ip.adr == s.tagR.tag) &&
            ip.we && ackOf c s ip) = false := by
          simp [hnt]
        split
        · rename_i hcond
          exact absurd hcond (by simp [hnt])
        · exact hkey
      · exact absurd hg (by decide)
    · exact absurd hg (by decide)
  · -- no refill beat is pending when leaving CHECK
    intro h1 h2
    simp only [stepCheck] at h2
    rw [e4] at h2
    exact absurd h2 (by decide)

theorem invC_step (c : Cfg) {s : State} {ip i : Input}
    (hgl : c.gran * c.lanes = c.dramDataW) (hB : InvB c s) (hC : InvC c s ip)
    (hc : conformsB c s ip i = true) : InvC c (step c s ip) i := by
  cases hf : s.fsm with
  | CHECK => exact invC_stepCheck c hB hC hc hf
  | EVICT => exact invC_stepEvict c hB hC hf
  | REFILL => exact invC_stepRefill c hgl hB hC hf

theorem reachC_reachAny {c : Cfg} {s : State} {i : Input}
    (h : ReachC c s i) : ReachAny c s := by
  induction h with
  | init _ => exact ReachAny.init
  | next h i hc ih => exact ih.next _

theorem reachC_invC {c : Cfg} {s : State} {i : Input}
    (hgl : c.gran * c.lanes = c.dramDataW) (h : ReachC c s i) :
    InvC c s i := by
  induction h with
  | init i => exact invC_init c i
  | next h i hc ih =>
      exact invC_step c hgl (reachAny_invB (reachC_reachAny h)) ih hc

/-- C2 (amended): the dirty bit is conservative.  In every state reachable
under the front-end protocol, a line whose DataStore content differs from
the backing store's content at its tagged address has its dirty bit set (a
write hit may also set the dirty bit when the written data happens to equal
the backing store's, so the converse direction does not hold). -/
theorem dirty_conservative (c : Cfg) {s : State} {i : Input}
    (hgl : c.gran * c.lanes = c.dramDataW) (hr : ReachC c s i)
    (l : Nat) (hl : l < 2 ^ c.lB)
    (hne : s.datMem l ≠ s.mem (mkDramAddr c l (s.tagMem l).tag)) :
    (s.tagMem l).dirty = true := by
  have hC := reachC_invC hgl hr
  rcases Bool.eq_false_or_eq_true (s.tagMem l).dirty with hd | hd
  · exact hd
  · exact absurd (hC.g1 l hl hd) hne

/-- Conformance of a whole input chain: starting from `s` about to consume
`ip`, each later input conforms with its predecessor, ending with `i`. -/
def chainOK (c : Cfg) : State → Input → List Input → Input → Bool
  | s, ip, [], i => conformsB c s ip i
  | s, ip, x :: xs, i => conformsB c s ip x && chainOK c (step c s ip) x xs i

theorem reachC_run {c : Cfg} (l : List Input) {s : State} {ip : Input}
    (h : ReachC c s ip) (i : Input) (hc : chainOK c s ip l i = true) :
    ReachC c (runList c s (ip :: l)) i := by
  induction l generalizing s ip with
  | nil => exact h.next i hc
  | cons x xs ih =>
      rw [chainOK, Bool.and_eq_true] at hc
      exact ih (h.next x hc.1) hc.2

/-- A write request at address 0 storing `0xAB` in both byte lanes. -/
def wrA : Input :=
  { cyc := true, stb := true, we := true, adr := 0, datW := 0xAB, sel := 3,
    cti := 0, bte := 0, cmdReady := false, wReady := false, rValidIn := false }

/-- A write request at address 0 storing zeros, identical to the backing
store's content. -/
def wrZ : Input := { wrA with datW := 0 }

theorem dirty_conservative_witness :
    ((runList cfg923 initState [wrA, wrA]).tagMem 0).dirty = true := by
  have hr : ReachC cfg923 (runList cfg923 initState [wrA, wrA]) idleIn :=
    reachC_run [wrA] (ReachC.init wrA) idleIn (by decide)
  exact dirty_conservative cfg923 (by decide) hr 0 (by decide) (by decide)

/-- C2 counterexample: a write hit that stores data identical to the
backing store's content still sets the dirty bit, so in this reachable
state line 0 is dirty while its DataStore content equals the backing
store's word at the corresponding address, refuting the claimed
equivalence. -/
theorem dirty_not_iff_differs :
    ReachC cfg923 (runList cfg923 initState [wrZ, wrZ]) idleIn ∧
      ((runList cfg923 initState [wrZ, wrZ]).tagMem 0).dirty = true ∧
      (runList cfg923 initState [wrZ, wrZ]).datMem 0 =
        (runList cfg923 initState [wrZ, wrZ]).mem
          (mkDramAddr cfg923 0
            ((runList cfg923 initState [wrZ, wrZ]).tagMem 0).tag) := by
  refine ⟨reachC_run [wrZ] (ReachC.init wrZ) idleIn (by decide), ?_, ?_⟩ <;>
    decide

/-- First priming request: a read of address 8 (tag 2, line 0). -/
def rA : Input :=
  { cyc := true, stb := true, we := false, adr := 8, datW := 0, sel := 0,
    cti := 0, bte := 0, cmdReady := false, wReady := false, rValidIn := false }

/-- Second priming request: an incrementing-burst read of address 6
(tag 1, line 1) with LINEAR wrap. -/
def rB : Input :=
  { cyc := true, stb := true, we := false, adr := 6, datW := 0, sel := 0,
    cti := 2, bte := 0, cmdReady := false, wReady := false, rValidIn := false }

/-- A sixteen-tick conforming trace: refill line 0 with tag 2, acknowledge
that request, then refill line 1 with tag 1 and run a LINEAR burst 6, 7, 8
whose lookahead reads line 0 while the registered request still holds
address 7. -/
def burstTrace : List Input :=
  [rA, rA, { rA with cmdReady := true }, { rA with rValidIn := true },
    rA, rA, rA, idleIn,
    rB, rB, { rB with cmdReady := true }, { rB with rValidIn := true },
    rB, rB, rB, { rB with adr := 7 }]

/-- The state after `burstTrace`, with the burst continuation at address 8
about to be presented. -/
def sBurst : State := runList cfg923 initState burstTrace

/-- The burst continuation input at address 8. -/
def rB8 : Input := { rB with adr := 8 }

theorem sBurst_reach : ReachC cfg923 sBurst rB8 :=
  reachC_run (burstTrace.tail) (ReachC.init rA) rB8 (by decide)

/-- C1 counterexample: in this reachable CHECK state the registered
request's tag (address 7, tag 1) differs from the tag just read (tag 2),
and the registered request was outstanding, yet acknowledge IS asserted:
the comparison in the source uses the live request's tag (address 8,
tag 2), not the registered one. -/
theorem check_ack_cex :
    ReachC cfg923 sBurst rB8 ∧ sBurst.fsm = Fsm.CHECK ∧
      rB8.cyc = true ∧ rB8.stb = true ∧
      sBurst.rCyc = true ∧ sBurst.rStb = true ∧
      ¬tagOf cfg923 sBurst.rAdr = sBurst.tagR.tag ∧
      (outs cfg923 sBurst rB8).ack = true := by
  refine ⟨sBurst_reach, ?_, ?_, ?_, ?_, ?_, ?_, ?_⟩ <;> decide

/-- C5 counterexample: in the same reachable CHECK state the registered
request is outstanding and its tag comparison against the stored tag FAILS,
yet the controller performs no miss handling: it stays in CHECK and keeps
tracking a request, because the source compares the live request's tag,
which matches. -/
theorem check_miss_cex :
    ReachC cfg923 sBurst rB8 ∧
      sBurst.rCyc = true ∧ sBurst.rStb = true ∧
      ¬tagOf cfg923 sBurst.rAdr = sBurst.tagR.tag ∧
      (step cfg923 sBurst rB8).fsm = Fsm.CHECK ∧
      (step cfg923 sBurst rB8).rCyc = true := by
  refine ⟨sBurst_reach, ?_, ?_, ?_, ?_, ?_⟩ <;> decide

theorem widths_partition_witness :
    2 ^ cfg923.oB = cfg923.wordsPer ∧ 2 ^ cfg923.lB = cfg923.nbLines ∧
      cfg923.oB + cfg923.lB + cfg923.tagW = cfg923.intrW ∧
      cfg923.intrW = cfg923.dramAddrW + cfg923.oB :=
  widths_partition cfg923 ⟨1, by decide⟩ ⟨1, by decide⟩ (by decide)

end Lambdasoc